import Mathlib

/-!
Verification development for a package dependency analyzer (src/main.py).

The program parses a Debian-style `Packages` index, builds a depth-bounded
dependency graph by breadth-first search, and computes reverse dependencies
by a full linear scan of the index.  The definitions below are a shallow
embedding of the corresponding Python functions:

* `parse_package_dependencies`  — src/main.py lines 108-152
* `find_reverse_dependencies_advanced` — src/main.py lines 373-423
  (modelled on the decoded index text; the network fetch is a black box)
* `build_dependency_graph_bfs` — src/main.py lines 186-260

Python strings are modelled as `String`, operating on the underlying
character list (Python string operations are code-point based).  Python
dicts are modelled as association lists with insert-or-replace update
(Python dicts preserve insertion order), Python sets of visited names as
duplicate-free lists, and `list(set(xs))` as first-occurrence
deduplication (the iteration order of a Python set is unspecified; all
claims about such values are order-insensitive or concern singleton or
duplicate-free lists).
-/

/-- Python `s.strip()`: remove leading and trailing whitespace. -/
def pyStrip (s : String) : String :=
  ⟨((s.data.dropWhile Char.isWhitespace).reverse.dropWhile Char.isWhitespace).reverse⟩

/-- Python `s.startswith(pre)`. -/
def pyStartsWith (pre s : String) : Bool :=
  decide (s.data.take pre.data.length = pre.data)

/-- Python `s[n:]`: drop the first `n` characters. -/
def pyDrop (n : Nat) (s : String) : String :=
  ⟨s.data.drop n⟩

/-- Split a character list at every occurrence of the character `c`
(Python `s.split(c)` for a one-character separator). -/
def splitCharList (c : Char) : List Char → List (List Char)
  | [] => [[]]
  | x :: xs =>
    match splitCharList c xs with
    | [] => [[]]
    | g :: gs => if x = c then [] :: g :: gs else (x :: g) :: gs

/-- Python `s.split(c)` for a one-character separator `c`. -/
def pySplitChar (c : Char) (s : String) : List String :=
  (splitCharList c s.data).map fun l => ⟨l⟩

/-- Python `pat in s` on character lists: does `pat` occur as a contiguous
subsequence? -/
def hasSeq (pat : List Char) : List Char → Bool
  | [] => decide (pat = [])
  | x :: xs => if (x :: xs).take pat.length = pat then true else hasSeq pat xs

/-- Python `s.split(pat)[0]`: the part of the list before the first
occurrence of `pat` (the whole list if `pat` does not occur). -/
def beforeSeq (pat : List Char) : List Char → List Char
  | [] => []
  | x :: xs => if (x :: xs).take pat.length = pat then [] else x :: beforeSeq pat xs

/-- Python `sub in s` for strings (substring containment). -/
def pyIn (sub s : String) : Bool :=
  hasSeq sub.data s.data

/-- The per-clause name extraction of src/main.py lines 132-137 (and its
verbatim copy at lines 407-411):
`dep = dep.strip()`; if `' ('` occurs in `dep`, the part before the first
`' ('`, stripped; otherwise the part before the first `' '`, stripped. -/
def parseDepName (rawDep : String) : String :=
  let d := pyStrip rawDep
  if hasSeq " (".data d.data then pyStrip ⟨beforeSeq " (".data d.data⟩
  else pyStrip ⟨beforeSeq " ".data d.data⟩

/-- The `Depends:` value parsing shared by src/main.py lines 130-139 and
402-413: split the value on `','`, extract each clause's name, keep the
nonempty ones in order. -/
def depLineVal (value : String) : List String :=
  (pySplitChar ',' value).foldl
    (fun acc dep =>
      let n := parseDepName dep
      if n ≠ "" then acc ++ [n] else acc)
    []

/-- First-occurrence deduplication, accumulator form. -/
def pyDedupAux : List String → List String → List String
  | [], acc => acc.reverse
  | x :: xs, acc => if x ∈ acc then pyDedupAux xs acc else pyDedupAux xs (x :: acc)

/-- Python `list(set(xs))`, modelled as first-occurrence deduplication
(set iteration order is unspecified; claims using this are
order-insensitive). -/
def pyDedup (xs : List String) : List String :=
  pyDedupAux xs []

/-- The line loop of `parse_package_dependencies` (src/main.py lines
118-142): find the line `Package: <pname>`, then collect every
`Depends:` value until the next `Package:` line. -/
def parseLoop (pname : String) : List String → Bool → List String → List String
  | [], _, acc => acc
  | l :: ls, true, acc =>
    if pyStartsWith "Package: " l ∧ pyDrop 9 l = pname then
      parseLoop pname ls true acc
    else if pyStartsWith "Depends: " l then
      parseLoop pname ls true (acc ++ depLineVal (pyDrop 9 l))
    else if pyStartsWith "Package: " l then acc
    else parseLoop pname ls true acc
  | l :: ls, false, acc =>
    if pyStartsWith "Package: " l ∧ pyDrop 9 l = pname then
      parseLoop pname ls true acc
    else parseLoop pname ls false acc

/-- `parse_package_dependencies` (src/main.py lines 108-152): dependencies
of `pname` in the index text, empty names dropped and duplicates removed. -/
def parse_package_dependencies (content pname : String) : List String :=
  pyDedup ((parseLoop pname (pySplitChar '\n' content) false []).filter fun d => d ≠ "")

/-- Scan state of `find_reverse_dependencies_advanced` (src/main.py lines
386-387): current package name (`none` before the first `Package:` line),
its accumulated dependencies, and the collected reverse dependencies. -/
structure AdvState where
  cur : Option String
  deps : List String
  acc : List String
deriving Repr, DecidableEq

/-- One line of the scan loop of `find_reverse_dependencies_advanced`
(src/main.py lines 390-413). -/
def advLine (target : String) (st : AdvState) (line : String) : AdvState :=
  let l := pyStrip line
  if pyStartsWith "Package: " l then
    let acc' := match st.cur with
      | some p => if p ≠ "" ∧ target ∈ st.deps then st.acc ++ [p] else st.acc
      | none => st.acc
    ⟨some (pyDrop 9 l), [], acc'⟩
  else if pyStartsWith "Depends: " l then
    ⟨st.cur, st.deps ++ depLineVal (pyDrop 9 l), st.acc⟩
  else st

/-- The full line scan of `find_reverse_dependencies_advanced`. -/
def advFold (target : String) (lines : List String) : AdvState :=
  lines.foldl (advLine target) ⟨none, [], []⟩

/-- The collected reverse dependencies after the scan, including the final
check of src/main.py lines 415-417 (the last stanza has no trailing
`Package:` line to close it). -/
def advCollect (target : String) (lines : List String) : List String :=
  let st := advFold target lines
  match st.cur with
  | some p => if p ≠ "" ∧ target ∈ st.deps then st.acc ++ [p] else st.acc
  | none => st.acc

/-- `find_reverse_dependencies_advanced` (src/main.py lines 373-423),
applied to the decoded index text: scan every stanza, collect the packages
whose dependencies contain `target`, deduplicate and sort. -/
def find_reverse_dependencies_advanced (content target : String) : List String :=
  List.insertionSort (fun a b => a ≤ b) (pyDedup (advCollect target (pySplitChar '\n' content)))

/-- State of the BFS loop of `build_dependency_graph_bfs` (src/main.py
lines 194-199).  `trace` is a ghost field recording, for each package
recorded into the graph by the loop, its name, the depth it was dequeued
at, and the dependency list recorded for it; it does not influence the
computation. -/
structure BfsState where
  graph : List (String × List String)
  queue : List (String × Nat)
  visited : List String
  trace : List (String × Nat × List String)
deriving Repr, DecidableEq

/-- Python dict update `d[k] = v` (replace in place, or append). -/
def dinsert (k : String) (v : List String) : List (String × List String) → List (String × List String)
  | [] => [(k, v)]
  | (k', v') :: rest => if k' = k then (k, v) :: rest else (k', v') :: dinsert k v rest

/-- Python dict lookup `d.get(k)`. -/
def dlookup (k : String) : List (String × List String) → Option (List String)
  | [] => none
  | (k', v') :: rest => if k' = k then some v' else dlookup k rest

/-- One iteration of the BFS while loop (src/main.py lines 216-257):
pop the head; skip it if visited; otherwise mark it visited and either
record an empty list (depth cutoff at lines 226-229, or substring filter
at lines 232-234) or record `lookup name` and enqueue its unvisited
dependencies at depth + 1 (lines 240-253). -/
def bfsStep (lookup : String → List String) (maxDepth : Nat) (filterSub : String)
    (st : BfsState) : BfsState :=
  match st.queue with
  | [] => st
  | (name, depth) :: rest =>
    if name ∈ st.visited then { st with queue := rest }
    else
      let visited' := name :: st.visited
      if maxDepth ≤ depth then
        { graph := dinsert name [] st.graph, queue := rest, visited := visited',
          trace := st.trace ++ [(name, depth, [])] }
      else if filterSub ≠ "" ∧ pyIn filterSub name then
        { graph := dinsert name [] st.graph, queue := rest, visited := visited',
          trace := st.trace ++ [(name, depth, [])] }
      else
        let deps := lookup name
        { graph := dinsert name deps st.graph,
          queue := rest ++ (deps.filter fun d => decide (d ∉ visited')).map fun d => (d, depth + 1),
          visited := visited',
          trace := st.trace ++ [(name, depth, deps)] }

/-- The BFS while loop (src/main.py lines 216-257), with explicit fuel;
the loop is left unchanged once the queue is empty. -/
def bfsRun (lookup : String → List String) (maxDepth : Nat) (filterSub : String) :
    Nat → BfsState → BfsState
  | 0, st => st
  | fuel + 1, st =>
    if st.queue = [] then st
    else bfsRun lookup maxDepth filterSub fuel (bfsStep lookup maxDepth filterSub st)

/-- The initial BFS state (src/main.py lines 195-204): the graph seeded
with the root and its given initial dependencies, the root marked visited,
and each initial dependency other than the root enqueued at depth 1. -/
def initState (root : String) (initDeps : List String) : BfsState :=
  { graph := [(root, initDeps)],
    queue := (initDeps.filter fun d => decide (d ∉ [root])).map fun d => (d, 1),
    visited := [root],
    trace := [] }

/-- `build_dependency_graph_bfs` (src/main.py lines 186-260).  In test
mode the dependency source is the supplied offline mapping; in production
mode it is `parse_package_dependencies` over the fetched index text, and a
failed or empty fetch (`fetched = none` or `""`, Python falsiness at line
211) returns the seeded graph as constructed so far. -/
def build_dependency_graph_bfs (maxDepth : Nat) (filterSub : String) (testMode : Bool)
    (fetched : Option String) (testLookup : String → List String)
    (root : String) (initDeps : List String) (fuel : Nat) : List (String × List String) :=
  let st := initState root initDeps
  if testMode then (bfsRun testLookup maxDepth filterSub fuel st).graph
  else
    match fetched with
    | none => st.graph
    | some content =>
      if content = "" then st.graph
      else (bfsRun (fun n => parse_package_dependencies content n) maxDepth filterSub fuel st).graph

/-! ### Lemmas about deduplication -/

theorem pyDedupAux_mem (y : String) (xs : List String) :
    ∀ acc, (y ∈ pyDedupAux xs acc ↔ y ∈ xs ∨ y ∈ acc) := by
  induction xs with
  | nil => intro acc; simp [pyDedupAux]
  | cons x xs ih =>
    intro acc
    by_cases h : x ∈ acc
    · rw [pyDedupAux, if_pos h, ih acc]
      simp only [List.mem_cons]
      constructor
      · tauto
      · rintro ((rfl | h1) | h1) <;> tauto
    · rw [pyDedupAux, if_neg h, ih (x :: acc)]
      simp only [List.mem_cons]
      tauto

theorem mem_pyDedup {y : String} {xs : List String} : y ∈ pyDedup xs ↔ y ∈ xs := by
  rw [pyDedup, pyDedupAux_mem]; simp

theorem pyDedupAux_nodup (xs : List String) :
    ∀ acc, acc.Nodup → (pyDedupAux xs acc).Nodup := by
  induction xs with
  | nil => intro acc h; simpa [pyDedupAux] using h
  | cons x xs ih =>
    intro acc h
    by_cases hx : x ∈ acc
    · rw [pyDedupAux, if_pos hx]; exact ih acc h
    · rw [pyDedupAux, if_neg hx]; exact ih (x :: acc) (List.nodup_cons.mpr ⟨hx, h⟩)

theorem nodup_pyDedup (xs : List String) : (pyDedup xs).Nodup :=
  pyDedupAux_nodup xs [] List.nodup_nil

/-! ### Lemmas about the dict operations -/

theorem dlookup_dinsert_self (k : String) (v : List String)
    (g : List (String × List String)) : dlookup k (dinsert k v g) = some v := by
  induction g with
  | nil => simp [dinsert, dlookup]
  | cons p g ih =>
    obtain ⟨k', v'⟩ := p
    by_cases h : k' = k
    · subst h; simp [dinsert, dlookup]
    · simp [dinsert, dlookup, h, ih]

theorem dlookup_dinsert_ne {k k0 : String} (h : ¬ k0 = k) (v : List String)
    (g : List (String × List String)) : dlookup k (dinsert k0 v g) = dlookup k g := by
  induction g with
  | nil => simp [dinsert, dlookup, h]
  | cons p g ih =>
    obtain ⟨k', v'⟩ := p
    by_cases h' : k' = k0
    · subst h'; simp [dinsert, dlookup, h]
    · simp [dinsert, dlookup, h', ih]

theorem dinsert_not_mem {k : String} {g : List (String × List String)}
    (h : k ∉ g.map Prod.fst) (v : List String) : dinsert k v g = g ++ [(k, v)] := by
  induction g with
  | nil => rfl
  | cons p g ih =>
    obtain ⟨k', v'⟩ := p
    simp only [List.map_cons, List.mem_cons] at h
    push_neg at h
    rw [dinsert, if_neg fun hh => h.1 hh.symm, List.cons_append, ih h.2]

/-! ### Unfolding and stability of the BFS loop -/

theorem bfsRun_queue_nil {L : String → List String} {m : Nat} {f : String} {st : BfsState}
    (h : st.queue = []) (fuel : Nat) : bfsRun L m f fuel st = st := by
  cases fuel with
  | zero => rfl
  | succ n => rw [bfsRun, if_pos h]

theorem bfsRun_succ {L : String → List String} {m : Nat} {f : String} {st : BfsState}
    (h : ¬ st.queue = []) (fuel : Nat) :
    bfsRun L m f (fuel + 1) st = bfsRun L m f fuel (bfsStep L m f st) := by
  rw [bfsRun, if_neg h]

theorem bfsRun_add {L : String → List String} {m : Nat} {f : String} (a : Nat) :
    ∀ (b : Nat) (st : BfsState),
      (bfsRun L m f a st).queue = [] → bfsRun L m f (a + b) st = bfsRun L m f a st := by
  induction a with
  | zero =>
    intro b st h
    rw [Nat.zero_add]
    exact bfsRun_queue_nil h b
  | succ a ih =>
    intro b st h
    by_cases hq : st.queue = []
    · rw [bfsRun_queue_nil hq, bfsRun_queue_nil hq]
    · rw [bfsRun_succ hq] at h
      rw [show a + 1 + b = (a + b) + 1 by omega, bfsRun_succ hq, bfsRun_succ hq, ih b _ h]

theorem bfsRun_of_le {L : String → List String} {m : Nat} {f : String} {a b : Nat}
    {st : BfsState} (hab : a ≤ b) (h : (bfsRun L m f a st).queue = []) :
    bfsRun L m f b st = bfsRun L m f a st := by
  obtain ⟨c, rfl⟩ := Nat.exists_eq_add_of_le hab
  exact bfsRun_add a c st h

theorem bfsRun_inv {L : String → List String} {m : Nat} {f : String} (P : BfsState → Prop)
    (hstep : ∀ st, P st → P (bfsStep L m f st)) :
    ∀ (fuel : Nat) (st : BfsState), P st → P (bfsRun L m f fuel st) := by
  intro fuel
  induction fuel with
  | zero => intro st h; exact h
  | succ n ih =>
    intro st h
    by_cases hq : st.queue = []
    · rw [bfsRun_queue_nil hq]; exact h
    · rw [bfsRun_succ hq]; exact ih _ (hstep st h)

/-! ### Characterization of a single BFS step -/

theorem bfsStep_visited {L : String → List String} {m : Nat} {f : String}
    {g : List (String × List String)} {rest : List (String × Nat)} {v : List String}
    {t : List (String × Nat × List String)} {n : String} {d : Nat} (h : n ∈ v) :
    bfsStep L m f ⟨g, (n, d) :: rest, v, t⟩ = ⟨g, rest, v, t⟩ := by
  simp [bfsStep, h]

theorem bfsStep_depth {L : String → List String} {m : Nat} {f : String}
    {g : List (String × List String)} {rest : List (String × Nat)} {v : List String}
    {t : List (String × Nat × List String)} {n : String} {d : Nat}
    (hv : n ∉ v) (hd : m ≤ d) :
    bfsStep L m f ⟨g, (n, d) :: rest, v, t⟩ =
      ⟨dinsert n [] g, rest, n :: v, t ++ [(n, d, [])]⟩ := by
  simp [bfsStep, hv, hd]

theorem bfsStep_filterHit {L : String → List String} {m : Nat} {f : String}
    {g : List (String × List String)} {rest : List (String × Nat)} {v : List String}
    {t : List (String × Nat × List String)} {n : String} {d : Nat}
    (hv : n ∉ v) (hd : ¬ m ≤ d) (hf : f ≠ "" ∧ pyIn f n) :
    bfsStep L m f ⟨g, (n, d) :: rest, v, t⟩ =
      ⟨dinsert n [] g, rest, n :: v, t ++ [(n, d, [])]⟩ := by
  simp [bfsStep, hv, hd, hf.1, hf.2]

theorem bfsStep_expand {L : String → List String} {m : Nat} {f : String}
    {g : List (String × List String)} {rest : List (String × Nat)} {v : List String}
    {t : List (String × Nat × List String)} {n : String} {d : Nat}
    (hv : n ∉ v) (hd : ¬ m ≤ d) (hf : ¬ (f ≠ "" ∧ pyIn f n)) :
    bfsStep L m f ⟨g, (n, d) :: rest, v, t⟩ =
      ⟨dinsert n (L n) g,
       rest ++ ((L n).filter fun x => decide (x ∉ n :: v)).map fun x => (x, d + 1),
       n :: v, t ++ [(n, d, L n)]⟩ := by
  simp only [bfsStep]
  rw [if_neg hv, if_neg hd, if_neg hf]

/-- Every BFS step is one of: no-op on an empty queue, a skip of an
already-visited head, or a record of an unvisited head (by depth cutoff,
filter, or expansion). -/
theorem bfsStep_shape (L : String → List String) (m : Nat) (f : String) (st : BfsState) :
    (st.queue = [] ∧ bfsStep L m f st = st) ∨
    (∃ n d rest, st.queue = (n, d) :: rest ∧ n ∈ st.visited ∧
       bfsStep L m f st = ⟨st.graph, rest, st.visited, st.trace⟩) ∨
    (∃ n d rest ds app, st.queue = (n, d) :: rest ∧ n ∉ st.visited ∧
       (m ≤ d → ds = []) ∧
       ((ds = [] ∧ app = []) ∨
         (¬ m ≤ d ∧ ds = L n ∧
           app = ((L n).filter fun x => decide (x ∉ n :: st.visited)).map fun x => (x, d + 1))) ∧
       bfsStep L m f st = ⟨dinsert n ds st.graph, rest ++ app, n :: st.visited,
         st.trace ++ [(n, d, ds)]⟩) := by
  obtain ⟨g, q, v, t⟩ := st
  cases q with
  | nil => exact Or.inl ⟨rfl, rfl⟩
  | cons hd rest =>
    obtain ⟨n, d⟩ := hd
    by_cases hv : n ∈ v
    · exact Or.inr (Or.inl ⟨n, d, rest, rfl, hv, bfsStep_visited hv⟩)
    · refine Or.inr (Or.inr ⟨n, d, rest, ?_⟩)
      by_cases hd' : m ≤ d
      · exact ⟨[], [], rfl, hv, fun _ => rfl, Or.inl ⟨rfl, rfl⟩,
          by rw [bfsStep_depth hv hd', List.append_nil]⟩
      · by_cases hf : f ≠ "" ∧ pyIn f n
        · exact ⟨[], [], rfl, hv, fun _ => rfl, Or.inl ⟨rfl, rfl⟩,
            by rw [bfsStep_filterHit hv hd' hf, List.append_nil]⟩
        · exact ⟨L n, _, rfl, hv, fun hh => absurd hh hd', Or.inr ⟨hd', rfl, rfl⟩,
            bfsStep_expand hv hd' hf⟩

/-! ### Step-preservation of the BFS invariants -/

theorem bfsStep_inv_root {L : String → List String} {m : Nat} {f : String}
    {root : String} {init : List String} (st : BfsState)
    (h : dlookup root st.graph = some init ∧ root ∈ st.visited) :
    dlookup root (bfsStep L m f st).graph = some init ∧
      root ∈ (bfsStep L m f st).visited := by
  rcases bfsStep_shape L m f st with ⟨hq, he⟩ | ⟨n, d, rest, hq, hv, he⟩ |
    ⟨n, d, rest, ds, app, hq, hv, hds, happ, he⟩ <;> rw [he]
  · exact h
  · exact h
  · have hne : ¬ n = root := fun hh => hv (hh ▸ h.2)
    exact ⟨by rw [show (BfsState.mk (dinsert n ds st.graph) (rest ++ app) (n :: st.visited)
        (st.trace ++ [(n, d, ds)])).graph = dinsert n ds st.graph from rfl,
      dlookup_dinsert_ne hne, h.1], List.mem_cons_of_mem _ h.2⟩

theorem bfsStep_inv_keys {L : String → List String} {m : Nat} {f : String} (st : BfsState)
    (h : (st.graph.map Prod.fst).reverse = st.visited) :
    ((bfsStep L m f st).graph.map Prod.fst).reverse = (bfsStep L m f st).visited := by
  rcases bfsStep_shape L m f st with ⟨hq, he⟩ | ⟨n, d, rest, hq, hv, he⟩ |
    ⟨n, d, rest, ds, app, hq, hv, hds, happ, he⟩ <;> rw [he]
  · exact h
  · exact h
  · have hn : n ∉ st.graph.map Prod.fst := by
      intro hmem
      exact hv (by rw [← h]; exact List.mem_reverse.mpr hmem)
    show ((dinsert n ds st.graph).map Prod.fst).reverse = n :: st.visited
    rw [dinsert_not_mem hn, List.map_append, List.reverse_append]
    simp [h]

theorem bfsStep_inv_trace_graph {L : String → List String} {m : Nat} {f : String}
    {root : String} {init : List String} (st : BfsState)
    (h : ∀ nm ds, dlookup nm st.graph = some ds →
      (nm = root ∧ ds = init) ∨ ∃ dp, (nm, dp, ds) ∈ st.trace) :
    ∀ nm ds, dlookup nm (bfsStep L m f st).graph = some ds →
      (nm = root ∧ ds = init) ∨ ∃ dp, (nm, dp, ds) ∈ (bfsStep L m f st).trace := by
  rcases bfsStep_shape L m f st with ⟨hq, he⟩ | ⟨n, d, rest, hq, hv, he⟩ |
    ⟨n, d, rest, ds, app, hq, hv, hds, happ, he⟩ <;> rw [he]
  · exact h
  · exact h
  · intro nm ds0 hl
    show (nm = root ∧ ds0 = init) ∨ ∃ dp, (nm, dp, ds0) ∈ st.trace ++ [(n, d, ds)]
    have hl' : dlookup nm (dinsert n ds st.graph) = some ds0 := hl
    by_cases hnm : nm = n
    · subst hnm
      rw [dlookup_dinsert_self] at hl'
      obtain rfl : ds = ds0 := Option.some.inj hl'
      exact Or.inr ⟨d, List.mem_append_right _ (List.mem_singleton.mpr rfl)⟩
    · rw [dlookup_dinsert_ne (fun hh => hnm hh.symm)] at hl'
      rcases h nm ds0 hl' with h1 | ⟨dp, h2⟩
      · exact Or.inl h1
      · exact Or.inr ⟨dp, List.mem_append_left _ h2⟩

theorem bfsStep_inv_depth {L : String → List String} {m : Nat} {f : String} (st : BfsState)
    (h : (∀ q ∈ st.queue, q.2 ≤ m) ∧
      ∀ r ∈ st.trace, r.2.1 ≤ m ∧ (r.2.1 = m → r.2.2 = [])) :
    (∀ q ∈ (bfsStep L m f st).queue, q.2 ≤ m) ∧
      ∀ r ∈ (bfsStep L m f st).trace, r.2.1 ≤ m ∧ (r.2.1 = m → r.2.2 = []) := by
  obtain ⟨hQ, hT⟩ := h
  rcases bfsStep_shape L m f st with ⟨hq, he⟩ | ⟨n, d, rest, hq, hv, he⟩ |
    ⟨n, d, rest, ds, app, hq, hv, hds, happ, he⟩ <;> rw [he]
  · exact ⟨hQ, hT⟩
  · exact ⟨fun q hq' => hQ q (hq ▸ List.mem_cons_of_mem _ hq'), hT⟩
  · have hdm : d ≤ m := hQ (n, d) (by rw [hq]; exact List.mem_cons_self _ _)
    constructor
    · intro q hq'
      rcases List.mem_append.mp hq' with h1 | h1
      · exact hQ q (by rw [hq]; exact List.mem_cons_of_mem _ h1)
      · rcases happ with ⟨_, rfl⟩ | ⟨hdlt, hds', rfl⟩
        · cases h1
        · obtain ⟨x, hx, rfl⟩ := List.mem_map.mp h1
          show d + 1 ≤ m
          omega
    · intro r hr
      rcases List.mem_append.mp hr with h1 | h1
      · exact hT r h1
      · obtain rfl : r = (n, d, ds) := List.mem_singleton.mp h1
        exact ⟨hdm, fun hdm' => hds (hdm' ▸ Nat.le_refl m)⟩

theorem bfsStep_inv_once {L : String → List String} {m : Nat} {f : String} (st : BfsState)
    (h : (st.trace.map fun r => r.1).Nodup ∧ ∀ r ∈ st.trace, r.1 ∈ st.visited) :
    ((bfsStep L m f st).trace.map fun r => r.1).Nodup ∧
      ∀ r ∈ (bfsStep L m f st).trace, r.1 ∈ (bfsStep L m f st).visited := by
  obtain ⟨hN, hV⟩ := h
  rcases bfsStep_shape L m f st with ⟨hq, he⟩ | ⟨n, d, rest, hq, hv, he⟩ |
    ⟨n, d, rest, ds, app, hq, hv, hds, happ, he⟩ <;> rw [he]
  · exact ⟨hN, hV⟩
  · exact ⟨hN, hV⟩
  · constructor
    · show ((st.trace ++ [(n, d, ds)]).map fun r => r.1).Nodup
      rw [List.map_append]
      refine List.Nodup.append hN (List.nodup_singleton n) ?_
      intro a ha hb
      obtain rfl : a = n := List.mem_singleton.mp hb
      obtain ⟨r, hr, rfl⟩ := List.mem_map.mp ha
      exact hv (hV r hr)
    · intro r hr
      rcases List.mem_append.mp hr with h1 | h1
      · exact List.mem_cons_of_mem _ (hV r h1)
      · obtain rfl : r = (n, d, ds) := List.mem_singleton.mp h1
        exact List.mem_cons_self _ _

theorem bfsStep_inv_U {L : String → List String} {m : Nat} {f : String} (U : List String)
    (hU : ∀ nm x, x ∈ L nm → x ∈ U) (st : BfsState)
    (h : st.visited.Nodup ∧ (∀ x ∈ st.visited, x ∈ U) ∧ ∀ q ∈ st.queue, q.1 ∈ U) :
    (bfsStep L m f st).visited.Nodup ∧ (∀ x ∈ (bfsStep L m f st).visited, x ∈ U) ∧
      ∀ q ∈ (bfsStep L m f st).queue, q.1 ∈ U := by
  obtain ⟨h1, h2, h3⟩ := h
  rcases bfsStep_shape L m f st with ⟨hq, he⟩ | ⟨n, d, rest, hq, hv, he⟩ |
    ⟨n, d, rest, ds, app, hq, hv, hds, happ, he⟩ <;> rw [he]
  · exact ⟨h1, h2, h3⟩
  · exact ⟨h1, h2, fun q hq' => h3 q (hq ▸ List.mem_cons_of_mem _ hq')⟩
  · have hnU : n ∈ U := h3 (n, d) (by rw [hq]; exact List.mem_cons_self _ _)
    refine ⟨List.nodup_cons.mpr ⟨hv, h1⟩, ?_, ?_⟩
    · intro x hx
      rcases List.mem_cons.mp hx with rfl | hx'
      · exact hnU
      · exact h2 x hx'
    · intro q hq'
      rcases List.mem_append.mp hq' with hh | hh
      · exact h3 q (by rw [hq]; exact List.mem_cons_of_mem _ hh)
      · rcases happ with ⟨_, rfl⟩ | ⟨_, hds', rfl⟩
        · cases hh
        · obtain ⟨x, hx, rfl⟩ := List.mem_map.mp hh
          exact hU n x (List.mem_filter.mp hx).1

/-! ### The invariants at the initial state -/

theorem initState_root (root : String) (init : List String) :
    dlookup root (initState root init).graph = some init ∧
      root ∈ (initState root init).visited := by
  constructor
  · show dlookup root [(root, init)] = some init
    simp [dlookup]
  · exact List.mem_singleton.mpr rfl

theorem initState_keys (root : String) (init : List String) :
    (((initState root init).graph.map Prod.fst)).reverse = (initState root init).visited := by
  rfl

theorem initState_trace_graph {root : String} {init : List String} :
    ∀ nm ds, dlookup nm (initState root init).graph = some ds →
      (nm = root ∧ ds = init) ∨ ∃ dp, (nm, dp, ds) ∈ (initState root init).trace := by
  intro nm ds h
  have h' : (if root = nm then some init else none) = some ds := h
  by_cases hh : root = nm
  · rw [if_pos hh] at h'
    exact Or.inl ⟨hh.symm, (Option.some.inj h').symm⟩
  · rw [if_neg hh] at h'
    cases h'

theorem initState_queue_mem {root : String} {init : List String} {q : String × Nat}
    (h : q ∈ (initState root init).queue) : q.1 ∈ init ∧ q.2 = 1 := by
  obtain ⟨x, hx, rfl⟩ := List.mem_map.mp h
  exact ⟨(List.mem_filter.mp hx).1, rfl⟩

theorem initState_depth {root : String} {init : List String} {m : Nat} (hm : 1 ≤ m) :
    (∀ q ∈ (initState root init).queue, q.2 ≤ m) ∧
      ∀ r ∈ (initState root init).trace, r.2.1 ≤ m ∧ (r.2.1 = m → r.2.2 = []) := by
  constructor
  · intro q hq
    rw [(initState_queue_mem hq).2]
    exact hm
  · intro r hr
    cases hr

theorem initState_once {root : String} {init : List String} :
    (((initState root init).trace.map fun r => r.1)).Nodup ∧
      ∀ r ∈ (initState root init).trace, r.1 ∈ (initState root init).visited := by
  exact ⟨List.nodup_nil, fun r hr => absurd hr (List.not_mem_nil r)⟩

theorem initState_U {root : String} {init : List String} {U : List String}
    (hroot : root ∈ U) (hinit : ∀ x ∈ init, x ∈ U) :
    (initState root init).visited.Nodup ∧
      (∀ x ∈ (initState root init).visited, x ∈ U) ∧
      ∀ q ∈ (initState root init).queue, q.1 ∈ U := by
  refine ⟨List.nodup_singleton root, ?_, ?_⟩
  · intro x hx
    obtain rfl : x = root := List.mem_singleton.mp hx
    exact hroot
  · intro q hq
    exact hinit q.1 (initState_queue_mem hq).1

/-! ### Termination of the BFS loop over a finite name universe -/

/-- Maximum of a list of naturals. -/
def natMaxList : List Nat → Nat
  | [] => 0
  | x :: xs => max x (natMaxList xs)

theorem le_natMaxList {x : Nat} {xs : List Nat} (h : x ∈ xs) : x ≤ natMaxList xs := by
  induction xs with
  | nil => cases h
  | cons y ys ih =>
    rcases List.mem_cons.mp h with rfl | h'
    · exact le_max_left _ _
    · exact le_trans (ih h') (le_max_right _ _)

theorem nodup_subset_length_le {v U : List String} (h1 : v.Nodup) (h2 : ∀ x ∈ v, x ∈ U) :
    v.length ≤ U.length :=
  (List.subperm_of_subset h1 h2).length_le

/-- With a finite universe `U` closed under the dependency source, the BFS
loop empties its queue after at most
`(|U| - |visited|) * (maxdeps + 1) + |queue|` further iterations. -/
theorem bfs_terminates (L : String → List String) (m : Nat) (f : String) (U : List String)
    (hU : ∀ nm x, x ∈ L nm → x ∈ U) :
    ∀ (N : Nat) (st : BfsState),
      st.visited.Nodup → (∀ x ∈ st.visited, x ∈ U) → (∀ q ∈ st.queue, q.1 ∈ U) →
      (U.length - st.visited.length) * (natMaxList (U.map fun nm => (L nm).length) + 1)
        + st.queue.length ≤ N →
      ∃ fuel, (bfsRun L m f fuel st).queue = [] := by
  intro N
  induction N using Nat.strong_induction_on with
  | _ N ih =>
    intro st h1 h2 h3 hN
    rcases hq : st.queue with _ | ⟨⟨n, d⟩, rest⟩
    · exact ⟨0, hq⟩
    · have hne : ¬ st.queue = [] := by rw [hq]; exact List.cons_ne_nil _ _
      have hinv := bfsStep_inv_U (L := L) (m := m) (f := f) U hU st ⟨h1, h2, h3⟩
      set B := natMaxList (U.map fun nm => (L nm).length) with hB
      have hstep : (U.length - (bfsStep L m f st).visited.length) * (B + 1)
          + (bfsStep L m f st).queue.length < N := by
        rcases bfsStep_shape L m f st with ⟨hq0, he⟩ | ⟨n', d', rest', hq', hv, he⟩ |
          ⟨n', d', rest', ds, app, hq', hv, hds, happ, he⟩
        · rw [hq0] at hq; cases hq
        · rw [he]
          have hlen : st.queue.length = rest'.length + 1 := by rw [hq']; rfl
          show (U.length - st.visited.length) * (B + 1) + rest'.length < N
          omega
        · rw [he]
          have hlen : st.queue.length = rest'.length + 1 := by rw [hq']; rfl
          have hnU : n' ∈ U := h3 (n', d') (by rw [hq']; exact List.mem_cons_self _ _)
          have hvU : st.visited.length < U.length := by
            have := nodup_subset_length_le (v := n' :: st.visited)
              (List.nodup_cons.mpr ⟨hv, h1⟩)
              (by intro x hx
                  rcases List.mem_cons.mp hx with rfl | hx'
                  · exact hnU
                  · exact h2 x hx')
            simpa using this
          have happlen : app.length ≤ B := by
            rcases happ with ⟨_, rfl⟩ | ⟨_, hds', rfl⟩
            · exact Nat.zero_le _
            · calc (((L n').filter fun x => decide (x ∉ n' :: st.visited)).map
                    fun x => (x, d' + 1)).length
                  = ((L n').filter fun x => decide (x ∉ n' :: st.visited)).length :=
                    List.length_map _ _
                _ ≤ (L n').length := List.length_filter_le _ _
                _ ≤ B := le_natMaxList (List.mem_map_of_mem _ hnU)
          show (U.length - (n' :: st.visited).length) * (B + 1)
              + (rest' ++ app).length < N
          rw [List.length_append, List.length_cons]
          obtain ⟨k, hk⟩ : ∃ k, U.length - st.visited.length = k + 1 :=
            ⟨U.length - st.visited.length - 1, by omega⟩
          have hk2 : U.length - (st.visited.length + 1) = k := by omega
          rw [hk2]
          have hexp : (k + 1) * (B + 1) = k * (B + 1) + (B + 1) := by ring
          rw [hk] at hN
          rw [hlen] at hN
          rw [hexp] at hN
          omega
      obtain ⟨fuel, hf⟩ := ih _ hstep (bfsStep L m f st) hinv.1 hinv.2.1 hinv.2.2
        (Nat.le_refl _)
      exact ⟨fuel + 1, by rw [bfsRun_succ hne]; exact hf⟩

/-! ### Claims C8, C10: seeded root entry and fetch failure -/

/-- Claim C8: in production mode, if the index text cannot be fetched (the
fetch step yields no data), `build_dependency_graph_bfs` returns, without
raising, the graph as constructed so far: exactly the root mapped to its
seeded initial dependencies and nothing else. -/
theorem claim_C8 (maxDepth : Nat) (filterSub : String) (testLookup : String → List String)
    (root : String) (initDeps : List String) (fuel : Nat) :
    build_dependency_graph_bfs maxDepth filterSub false none testLookup root initDeps fuel
      = [(root, initDeps)] := rfl

/-- Claim C10: every build maps the root to exactly the given initial
dependency list, unmodified — the root is seeded visited at depth 0, so it
is never re-recorded, regardless of mode, fetch outcome, filter substring
or depth limit. -/
theorem claim_C10 (maxDepth : Nat) (filterSub : String) (testMode : Bool)
    (fetched : Option String) (testLookup : String → List String)
    (root : String) (initDeps : List String) (fuel : Nat) :
    dlookup root (build_dependency_graph_bfs maxDepth filterSub testMode fetched testLookup
      root initDeps fuel) = some initDeps := by
  have key : ∀ (L : String → List String),
      dlookup root (bfsRun L maxDepth filterSub fuel (initState root initDeps)).graph
        = some initDeps := fun L =>
    (bfsRun_inv (L := L) (m := maxDepth) (f := filterSub)
      (fun st => dlookup root st.graph = some initDeps ∧ root ∈ st.visited)
      (fun st h => bfsStep_inv_root st h) fuel _ (initState_root root initDeps)).1
  have hroot : dlookup root (initState root initDeps).graph = some initDeps :=
    (initState_root root initDeps).1
  cases testMode with
  | true => exact key testLookup
  | false =>
    cases fetched with
    | none => exact hroot
    | some content =>
      by_cases hc : content = ""
      · show dlookup root (if content = "" then (initState root initDeps).graph else _)
          = some initDeps
        rw [if_pos hc]
        exact hroot
      · show dlookup root (if content = "" then (initState root initDeps).graph else _)
          = some initDeps
        rw [if_neg hc]
        exact key _

/-! ### Claim C6: termination and visited-set versus graph size -/

/-- Claim C6: for every dependency source whose names are drawn from a
finite universe `U` (root, initial dependencies and all lookup results in
`U`), including cyclic relations, the BFS terminates: some fuel empties
the queue, from then on every larger fuel gives the same built graph, and
at that point the visited-set size equals the number of keys of the graph. -/
theorem claim_C6 (L : String → List String) (maxDepth : Nat) (filterSub : String)
    (root : String) (initDeps : List String) (U : List String)
    (hroot : root ∈ U) (hinit : ∀ x ∈ initDeps, x ∈ U)
    (hU : ∀ nm x, x ∈ L nm → x ∈ U) :
    ∃ fuel, (bfsRun L maxDepth filterSub fuel (initState root initDeps)).queue = [] ∧
      (bfsRun L maxDepth filterSub fuel (initState root initDeps)).visited.length =
        (bfsRun L maxDepth filterSub fuel (initState root initDeps)).graph.length ∧
      ∀ fuel', fuel ≤ fuel' →
        build_dependency_graph_bfs maxDepth filterSub true none L root initDeps fuel' =
          (bfsRun L maxDepth filterSub fuel (initState root initDeps)).graph := by
  obtain ⟨h1, h2, h3⟩ := initState_U hroot hinit
  obtain ⟨fuel, hf⟩ := bfs_terminates L maxDepth filterSub U hU _ (initState root initDeps)
    h1 h2 h3 (Nat.le_refl _)
  refine ⟨fuel, hf, ?_, ?_⟩
  · have hkeys := bfsRun_inv (L := L) (m := maxDepth) (f := filterSub)
      (fun st => (st.graph.map Prod.fst).reverse = st.visited)
      (fun st h => bfsStep_inv_keys st h) fuel _ (initState_keys root initDeps)
    rw [← hkeys, List.length_reverse, List.length_map]
  · intro fuel' hle
    show (bfsRun L maxDepth filterSub fuel' (initState root initDeps)).graph = _
    rw [bfsRun_of_le hle hf]

/-- Witness for C6 at a concrete finite dependency source. -/
theorem claim_C6_witness :
    ∃ fuel, (bfsRun (fun _ => ["B"]) 3 "" fuel (initState "A" ["B"])).queue = [] ∧
      (bfsRun (fun _ => ["B"]) 3 "" fuel (initState "A" ["B"])).visited.length =
        (bfsRun (fun _ => ["B"]) 3 "" fuel (initState "A" ["B"])).graph.length ∧
      ∀ fuel', fuel ≤ fuel' →
        build_dependency_graph_bfs 3 "" true none (fun _ => ["B"]) "A" ["B"] fuel' =
          (bfsRun (fun _ => ["B"]) 3 "" fuel (initState "A" ["B"])).graph :=
  claim_C6 (fun _ => ["B"]) 3 "" "A" ["B"] ["A", "B"] (by decide)
    (by intro x hx; simp at hx ⊢; exact Or.inr hx)
    (by intro nm x hx
        have : x = "B" := by simpa using hx
        rw [this]; decide)

/-! ### Claim C4: enqueue condition and queue duplicates -/

/-- Claim C4 counterexample: with dependency source B ↦ [X], C ↦ [X] and
root A seeded with [B, C], after two BFS steps the queue holds the entry
(X, 2) twice — the queue does not hold at most one entry per package name,
because enqueuing checks only the visited set, not the queue. -/
theorem claim_C4_counterexample :
    ((bfsRun (fun n => if n = "B" then ["X"] else if n = "C" then ["X"] else [])
        3 "" 2 (initState "A" ["B", "C"])).queue = [("X", 2), ("X", 2)]) ∧
      ¬ (((bfsRun (fun n => if n = "B" then ["X"] else if n = "C" then ["X"] else [])
        3 "" 2 (initState "A" ["B", "C"])).queue.map Prod.fst)).Nodup := by
  exact ⟨by decide, by decide⟩

/-- Claim C4 (amended): when an unvisited head (n, d) below the depth
cutoff and missed by the filter is expanded, exactly those of its
dependencies not in the visited set (n itself just added) are appended,
each at depth d + 1; there is no check against names already in the queue,
so the queue may hold several entries for the same name, but a dequeued
name that is already visited is skipped unchanged, so every package is
still recorded (traced) at most once. -/
theorem claim_C4 (L : String → List String) (m : Nat) (f : String) :
    (∀ g rest v t (n : String) (d : Nat), n ∉ v → ¬ m ≤ d → ¬ (f ≠ "" ∧ pyIn f n) →
      (bfsStep L m f ⟨g, (n, d) :: rest, v, t⟩).queue =
        rest ++ ((L n).filter fun x => decide (x ∉ n :: v)).map fun x => (x, d + 1)) ∧
    (∀ g rest v t (n : String) (d : Nat), n ∈ v →
      bfsStep L m f ⟨g, (n, d) :: rest, v, t⟩ = ⟨g, rest, v, t⟩) ∧
    (∀ (root : String) (initDeps : List String) (fuel : Nat),
      (((bfsRun L m f fuel (initState root initDeps)).trace.map fun r => r.1)).Nodup) := by
  refine ⟨?_, ?_, ?_⟩
  · intro g rest v t n d hv hd hf
    rw [bfsStep_expand hv hd hf]
  · intro g rest v t n d hv
    exact bfsStep_visited hv
  · intro root initDeps fuel
    exact (bfsRun_inv
      (fun st => (((st.trace.map fun r => r.1))).Nodup ∧ ∀ r ∈ st.trace, r.1 ∈ st.visited)
      (fun st h => bfsStep_inv_once st h) fuel _ initState_once).1

/-- Witness for C4 at a concrete expansion step. -/
theorem claim_C4_witness :
    (("B" : String) ∉ (["A"] : List String)) ∧
    (bfsStep (fun _ => ["X", "A"]) 3 "" ⟨[("A", ["B"])], [("B", 1)], ["A"], []⟩).queue =
      [] ++ (((["X", "A"].filter fun x => decide (x ∉ ["B", "A"])).map fun x => (x, 2))) :=
  ⟨by decide, (claim_C4 (fun _ => ["X", "A"]) 3 "").1 [("A", ["B"])] [] ["A"] [] "B" 1
    (by decide) (by decide) (by decide)⟩

/-! ### Claim C5: depth cutoff -/

/-- Claim C5 counterexample: with maxDepth = 2, root R seeded with [A, X]
and source A ↦ [X], X ↦ [Y]: after two steps the queue head is (X, 2) with
2 ≥ maxDepth, yet in the final graph X is recorded with the nonempty list
[Y] — X was expanded earlier at depth 1, and its duplicate entry dequeued
at depth 2 is skipped, not recorded with an empty list. -/
theorem claim_C5_counterexample :
    (bfsRun (fun n => if n = "A" then ["X"] else if n = "X" then ["Y"] else [])
        2 "" 2 (initState "R" ["A", "X"])).queue = [("X", 2), ("Y", 2)] ∧
    dlookup "X" ((bfsRun (fun n => if n = "A" then ["X"] else if n = "X" then ["Y"] else [])
        2 "" 10 (initState "R" ["A", "X"])).graph) = some ["Y"] ∧
    some ["Y"] ≠ some ([] : List String) := by
  exact ⟨by decide, by decide, by decide⟩

/-- Claim C5 (amended): a *not-yet-visited* package dequeued at depth ≥
maxDepth is recorded with an empty dependency list, its dependencies are
neither looked up (the step does not depend on the source) nor enqueued;
(already-visited duplicate entries are skipped unchanged); every recorded
entry is recorded at a depth ≤ maxDepth (for maxDepth ≥ 1), entries
recorded at exactly maxDepth are empty, and every graph entry other than
the seeded root comes from such a record. -/
theorem claim_C5 (m : Nat) (f : String) (hm : 1 ≤ m) :
    (∀ (L : String → List String) g rest v t (n : String) (d : Nat), n ∉ v → m ≤ d →
      bfsStep L m f ⟨g, (n, d) :: rest, v, t⟩ =
        ⟨dinsert n [] g, rest, n :: v, t ++ [(n, d, [])]⟩) ∧
    (∀ (L : String → List String) (root : String) (initDeps : List String) (fuel : Nat),
      ∀ r ∈ (bfsRun L m f fuel (initState root initDeps)).trace,
        r.2.1 ≤ m ∧ (r.2.1 = m → r.2.2 = [])) ∧
    (∀ (L : String → List String) (root : String) (initDeps : List String) (fuel : Nat)
      (nm : String) (ds : List String),
      dlookup nm (bfsRun L m f fuel (initState root initDeps)).graph = some ds →
        (nm = root ∧ ds = initDeps) ∨
          ∃ dp, (nm, dp, ds) ∈ (bfsRun L m f fuel (initState root initDeps)).trace) := by
  refine ⟨?_, ?_, ?_⟩
  · intro L g rest v t n d hv hd
    exact bfsStep_depth hv hd
  · intro L root initDeps fuel
    exact (bfsRun_inv
      (fun st => (∀ q ∈ st.queue, q.2 ≤ m) ∧
        ∀ r ∈ st.trace, r.2.1 ≤ m ∧ (r.2.1 = m → r.2.2 = []))
      (fun st h => bfsStep_inv_depth st h) fuel _ (initState_depth hm)).2
  · intro L root initDeps fuel
    exact bfsRun_inv
      (fun st => ∀ nm ds, dlookup nm st.graph = some ds →
        (nm = root ∧ ds = initDeps) ∨ ∃ dp, (nm, dp, ds) ∈ st.trace)
      (fun st h => bfsStep_inv_trace_graph st h) fuel _ initState_trace_graph

/-- Witness for C5 at a concrete run. -/
theorem claim_C5_witness :
    (1 ≤ 2) ∧ ∀ r ∈ (bfsRun (fun _ => []) 2 "" 5 (initState "A" ["B"])).trace,
      r.2.1 ≤ 2 ∧ (r.2.1 = 2 → r.2.2 = []) :=
  ⟨by decide, (claim_C5 2 "" (by decide)).2.1 (fun _ => []) "A" ["B"] 5⟩

/-! ### Claims C2, C3: the concrete scenarios -/

/-- Claim C2 counterexample: on the scenario index, the maxDepth = 2 build
also records the key D (reached at depth 2 and cut off there), so the
returned graph is not exactly {A:[B,C], B:[D], C:[]}. -/
theorem claim_C2_counterexample :
    dlookup "D" (build_dependency_graph_bfs 2 "" false
      (some "Package: A\nDepends: B, C (>= 2.0)\n\nPackage: B\nDepends: D\n\nPackage: C\n")
      (fun _ => []) "A" ["B", "C"] 10) = some [] ∧
    ("D" : String) ≠ "A" ∧ ("D" : String) ≠ "B" ∧ ("D" : String) ≠ "C" := by
  exact ⟨by decide, by decide, by decide, by decide⟩

/-- Claim C2 (amended): on the scenario index the lookup of A returns
exactly {B, C}; the maxDepth = 2 build returns exactly
{A:[B,C], B:[D], C:[], D:[]} (D is reached at depth 2 = maxDepth and
recorded with an empty list), and the maxDepth = 1 build returns exactly
{A:[B,C], B:[], C:[]}. -/
theorem claim_C2 (testLookup : String → List String) (f2 f1 : Nat)
    (h2 : 3 ≤ f2) (h1 : 2 ≤ f1) :
    parse_package_dependencies
        "Package: A\nDepends: B, C (>= 2.0)\n\nPackage: B\nDepends: D\n\nPackage: C\n" "A"
      = ["B", "C"] ∧
    build_dependency_graph_bfs 2 "" false
      (some "Package: A\nDepends: B, C (>= 2.0)\n\nPackage: B\nDepends: D\n\nPackage: C\n")
      testLookup "A" ["B", "C"] f2
      = [("A", ["B", "C"]), ("B", ["D"]), ("C", []), ("D", [])] ∧
    build_dependency_graph_bfs 1 "" false
      (some "Package: A\nDepends: B, C (>= 2.0)\n\nPackage: B\nDepends: D\n\nPackage: C\n")
      testLookup "A" ["B", "C"] f1
      = [("A", ["B", "C"]), ("B", []), ("C", [])] := by
  refine ⟨by decide, ?_, ?_⟩
  · show (bfsRun (fun n => parse_package_dependencies
        "Package: A\nDepends: B, C (>= 2.0)\n\nPackage: B\nDepends: D\n\nPackage: C\n" n)
        2 "" f2 (initState "A" ["B", "C"])).graph = _
    rw [bfsRun_of_le h2 (by decide)]
    decide
  · show (bfsRun (fun n => parse_package_dependencies
        "Package: A\nDepends: B, C (>= 2.0)\n\nPackage: B\nDepends: D\n\nPackage: C\n" n)
        1 "" f1 (initState "A" ["B", "C"])).graph = _
    rw [bfsRun_of_le h1 (by decide)]
    decide

/-- Witness for C2 at fuel 3 and 2. -/
theorem claim_C2_witness :
    (3 ≤ 3 ∧ 2 ≤ 2) ∧
    (parse_package_dependencies
        "Package: A\nDepends: B, C (>= 2.0)\n\nPackage: B\nDepends: D\n\nPackage: C\n" "A"
      = ["B", "C"] ∧
    build_dependency_graph_bfs 2 "" false
      (some "Package: A\nDepends: B, C (>= 2.0)\n\nPackage: B\nDepends: D\n\nPackage: C\n")
      (fun _ => []) "A" ["B", "C"] 3
      = [("A", ["B", "C"]), ("B", ["D"]), ("C", []), ("D", [])] ∧
    build_dependency_graph_bfs 1 "" false
      (some "Package: A\nDepends: B, C (>= 2.0)\n\nPackage: B\nDepends: D\n\nPackage: C\n")
      (fun _ => []) "A" ["B", "C"] 2
      = [("A", ["B", "C"]), ("B", []), ("C", [])]) :=
  ⟨⟨by decide, by decide⟩, claim_C2 (fun _ => []) 3 2 (by decide) (by decide)⟩

/-- Claim C3 counterexample: over the offline-format content
"A: B, C\nB: D\n" with target "B", the full-index reverse scan does not
return ["A"]. -/
theorem claim_C3_counterexample :
    find_reverse_dependencies_advanced "A: B, C\nB: D\n" "B" ≠ ["A"] := by decide

/-- Claim C3 (amended): the full-index reverse scan recognizes only lines
starting with `Package: ` and `Depends: `; the offline-format content
"A: B, C\nB: D\n" has neither, so no stanza is ever opened and the scan
over it with target "B" returns the empty list. -/
theorem claim_C3 :
    find_reverse_dependencies_advanced "A: B, C\nB: D\n" "B" = [] := by decide

/-! ### Claim C1: clause-name extraction, discarding and deduplication -/

/-- Claim C1 counterexample: for the clause "a b (>= 1)" the code extracts
"a b" (everything before the first occurrence of the two-character
sequence " ("), not "a"; and for "name(>=1)" (no space before the
parenthesis) it extracts the whole "name(>=1)", not "name". -/
theorem claim_C1_counterexample :
    parseDepName "a b (>= 1)" = "a b" ∧ parseDepName "a b (>= 1)" ≠ "a" ∧
    parseDepName "name(>=1)" = "name(>=1)" ∧ parseDepName "name(>=1)" ≠ "name" := by
  exact ⟨by decide, by decide, by decide, by decide⟩

/-- Claim C1 (amended): the `Depends:` value is split on ','; each clause
is trimmed; if the trimmed clause contains the two-character sequence " ("
the extracted name is the trimmed part before its first occurrence (so
"a b (>= 1)" yields "a b", keeping the inner space), otherwise the part
before the first space (so "name(>=1)" yields "name(>=1)" whole, while
"C (>= 2.0)" yields "C"); empty results are discarded and the resulting
dependency list is duplicate-free. -/
theorem claim_C1 (content pname : String) :
    (parse_package_dependencies content pname).Nodup ∧
    (∀ x ∈ parse_package_dependencies content pname, x ≠ "") ∧
    parseDepName "a b (>= 1)" = "a b" ∧
    parseDepName "name(>=1)" = "name(>=1)" ∧
    parseDepName " C (>= 2.0)" = "C" ∧
    depLineVal "B, C (>= 2.0)" = ["B", "C"] := by
  refine ⟨nodup_pyDedup _, ?_, by decide, by decide, by decide, by decide⟩
  intro x hx
  have h1 := mem_pyDedup.mp hx
  have h2 := (List.mem_filter.mp h1).2
  simpa using h2

/-- Witness for C1 on the scenario index. -/
theorem claim_C1_witness :
    (("B" : String) ∈ parse_package_dependencies
      "Package: A\nDepends: B, C (>= 2.0)\n\nPackage: B\nDepends: D\n\nPackage: C\n" "A") ∧
    ("B" : String) ≠ "" :=
  ⟨by decide,
   (claim_C1 "Package: A\nDepends: B, C (>= 2.0)\n\nPackage: B\nDepends: D\n\nPackage: C\n"
     "A").2.1 "B" (by decide)⟩

/-! ### Claim C7: final-stanza check, deduplication and sorting -/

/-- Claim C7: the full-index reverse scan performs the dependents check
once more after the line scan completes, so a final stanza with no
trailing `Package:` line is still reported when its accumulated
dependencies contain the target; and for every index text and target the
returned list is duplicate-free and sorted in ascending order. -/
theorem claim_C7 (content target : String) :
    (∀ p, (advFold target (pySplitChar '\n' content)).cur = some p → p ≠ "" →
      target ∈ (advFold target (pySplitChar '\n' content)).deps →
      p ∈ find_reverse_dependencies_advanced content target) ∧
    (find_reverse_dependencies_advanced content target).Sorted (fun a b => a ≤ b) ∧
    (find_reverse_dependencies_advanced content target).Nodup := by
  refine ⟨?_, ?_, ?_⟩
  · intro p hc hp ht
    have hmem : p ∈ advCollect target (pySplitChar '\n' content) := by
      rw [advCollect]
      rw [hc]
      show p ∈ if p ≠ "" ∧ target ∈ (advFold target (pySplitChar '\n' content)).deps then
        (advFold target (pySplitChar '\n' content)).acc ++ [p]
        else (advFold target (pySplitChar '\n' content)).acc
      rw [if_pos ⟨hp, ht⟩]
      exact List.mem_append_right _ (List.mem_singleton.mpr rfl)
    rw [find_reverse_dependencies_advanced]
    rw [List.mem_insertionSort]
    exact mem_pyDedup.mpr hmem
  · exact List.sorted_insertionSort _ _
  · exact ((List.perm_insertionSort _ _).nodup_iff).mpr (nodup_pyDedup _)

/-- Witness for C7: an index whose final stanza (package Y) has no closing
`Package:` line and depends on the target Q. -/
theorem claim_C7_witness :
    (advFold "Q" (pySplitChar '\n' "Package: X\nDepends: R\nPackage: Y\nDepends: Q")).cur
        = some "Y" ∧
    ("Y" : String) ∈
      find_reverse_dependencies_advanced "Package: X\nDepends: R\nPackage: Y\nDepends: Q" "Q" :=
  ⟨by decide,
   (claim_C7 "Package: X\nDepends: R\nPackage: Y\nDepends: Q" "Q").1 "Y" (by decide)
     (by decide) (by decide)⟩

/-! ### Stanza decomposition, used to relate the two stanza parsers
(`parse_package_dependencies` and the scan of
`find_reverse_dependencies_advanced`) for claim C9. -/

/-- The stanzas of a line list: for each `Package:` heading, the package
name together with the dependencies accumulated from its `Depends:` lines
(`cur` is the still-open stanza, emitted at the next heading or at the end
of input). -/
def stanzasOf : List String → Option (String × List String) → List (String × List String)
  | [], none => []
  | [], some st => [st]
  | l :: ls, cur =>
    if pyStartsWith "Package: " l then
      (match cur with | some st => [st] | none => []) ++ stanzasOf ls (some (pyDrop 9 l, []))
    else if pyStartsWith "Depends: " l then
      match cur with
      | some (p, ds) => stanzasOf ls (some (p, ds ++ depLineVal (pyDrop 9 l)))
      | none => stanzasOf ls none
    else stanzasOf ls cur

/-- The dependency list of the first stanza named `P` (empty if none). -/
def lookupDeps (P : String) : List (String × List String) → List String
  | [] => []
  | (p, ds) :: rest => if p = P then ds else lookupDeps P rest

/-- The `Depends:` values collected up to the next `Package:` heading. -/
def collectTail : List String → List String
  | [] => []
  | l :: ls =>
    if pyStartsWith "Depends: " l then depLineVal (pyDrop 9 l) ++ collectTail ls
    else if pyStartsWith "Package: " l then []
    else collectTail ls

/-- The names heading the `Package:` lines, in order. -/
def headingNames (lines : List String) : List String :=
  (lines.filter fun l => pyStartsWith "Package: " l).map fun l => pyDrop 9 l

/-- The still-open stanza corresponding to scan state (cur, deps). -/
def curPair : Option String → List String → Option (String × List String)
  | none, _ => none
  | some p, ds => some (p, ds)

/-- The names of the stanzas whose dependencies contain the target (with
the Python truthiness check on the name). -/
def stanzaHits (target : String) (sts : List (String × List String)) : List String :=
  (sts.filter fun s => decide (s.1 ≠ "" ∧ target ∈ s.2)).map Prod.fst

/-- The final-stanza check of the reverse scan, as a function of the scan
state. -/
def advFinish (target : String) (st : AdvState) : List String :=
  match st.cur with
  | some p => if p ≠ "" ∧ target ∈ st.deps then st.acc ++ [p] else st.acc
  | none => st.acc

/-! ### Reduction lemmas for the scan and the stanza decomposition -/

theorem pkg_not_dep {l : String} (h1 : pyStartsWith "Package: " l = true) :
    ¬ pyStartsWith "Depends: " l = true := by
  intro h2
  have e1 := of_decide_eq_true h1
  have e2 := of_decide_eq_true h2
  rw [show ("Package: ".data.length) = 9 from rfl] at e1
  rw [show ("Depends: ".data.length) = 9 from rfl] at e2
  have : ("Package: ".data : List Char) = "Depends: ".data := by rw [← e1, ← e2]
  exact absurd this (by decide)

theorem heading_name_ne {l : String} (ht : pyStrip l = l)
    (h : pyStartsWith "Package: " l = true) : ¬ pyDrop 9 l = "" := by
  intro h0
  have e1 : l.data.take 9 = "Package: ".data := by
    have h' := of_decide_eq_true h
    rwa [show ("Package: ".data.length) = 9 from rfl] at h'
  have e2 : l.data.drop 9 = ([] : List Char) := congrArg String.data h0
  have e3 : l.data = "Package: ".data := by
    rw [← List.take_append_drop 9 l.data, e1, e2, List.append_nil]
  have e4 : l = "Package: " := by
    have h5 : String.mk l.data = String.mk "Package: ".data := by rw [e3]
    simpa using h5
  rw [e4] at ht
  exact absurd ht (by decide)

theorem advLine_pkg {target line : String} {st : AdvState} (ht : pyStrip line = line)
    (h : pyStartsWith "Package: " line = true) :
    advLine target st line = ⟨some (pyDrop 9 line), [],
      match st.cur with
      | some p => if p ≠ "" ∧ target ∈ st.deps then st.acc ++ [p] else st.acc
      | none => st.acc⟩ := by
  simp only [advLine]
  rw [ht, if_pos h]

theorem advLine_dep {target line : String} {st : AdvState} (ht : pyStrip line = line)
    (h1 : ¬ pyStartsWith "Package: " line = true)
    (h2 : pyStartsWith "Depends: " line = true) :
    advLine target st line = ⟨st.cur, st.deps ++ depLineVal (pyDrop 9 line), st.acc⟩ := by
  simp only [advLine]
  rw [ht, if_neg h1, if_pos h2]

theorem advLine_other {target line : String} {st : AdvState} (ht : pyStrip line = line)
    (h1 : ¬ pyStartsWith "Package: " line = true)
    (h2 : ¬ pyStartsWith "Depends: " line = true) :
    advLine target st line = st := by
  simp only [advLine]
  rw [ht, if_neg h1, if_neg h2]

theorem stanzasOf_pkg {l : String} {ls : List String} {cur : Option (String × List String)}
    (h : pyStartsWith "Package: " l = true) :
    stanzasOf (l :: ls) cur =
      (match cur with | some st => [st] | none => []) ++
        stanzasOf ls (some (pyDrop 9 l, [])) := by
  cases cur with
  | none => rw [stanzasOf, if_pos h]
  | some st => obtain ⟨p, ds⟩ := st; rw [stanzasOf, if_pos h]

theorem stanzasOf_dep {l : String} {ls : List String} {p : String} {ds : List String}
    (h1 : ¬ pyStartsWith "Package: " l = true) (h2 : pyStartsWith "Depends: " l = true) :
    stanzasOf (l :: ls) (some (p, ds)) =
      stanzasOf ls (some (p, ds ++ depLineVal (pyDrop 9 l))) := by
  rw [stanzasOf, if_neg h1, if_pos h2]

theorem stanzasOf_dep_none {l : String} {ls : List String}
    (h1 : ¬ pyStartsWith "Package: " l = true) (h2 : pyStartsWith "Depends: " l = true) :
    stanzasOf (l :: ls) none = stanzasOf ls none := by
  rw [stanzasOf, if_neg h1, if_pos h2]

theorem stanzasOf_other {l : String} {ls : List String} {cur : Option (String × List String)}
    (h1 : ¬ pyStartsWith "Package: " l = true) (h2 : ¬ pyStartsWith "Depends: " l = true) :
    stanzasOf (l :: ls) cur = stanzasOf ls cur := by
  cases cur with
  | none => rw [stanzasOf, if_neg h1, if_neg h2]
  | some st => obtain ⟨p, ds⟩ := st; rw [stanzasOf, if_neg h1, if_neg h2]

theorem headingNames_cons_pkg {l : String} {lines : List String}
    (h : pyStartsWith "Package: " l = true) :
    headingNames (l :: lines) = pyDrop 9 l :: headingNames lines := by
  rw [headingNames, headingNames, List.filter_cons_of_pos h, List.map_cons]

theorem headingNames_cons_neg {l : String} {lines : List String}
    (h : ¬ pyStartsWith "Package: " l = true) :
    headingNames (l :: lines) = headingNames lines := by
  rw [headingNames, headingNames, List.filter_cons_of_neg (by simpa using h)]

theorem mem_headingNames {P l : String} {lines : List String} (hl : l ∈ lines)
    (h1 : pyStartsWith "Package: " l = true) (h2 : pyDrop 9 l = P) :
    P ∈ headingNames lines := by
  rw [headingNames]
  exact List.mem_map.mpr ⟨l, List.mem_filter.mpr ⟨hl, h1⟩, h2⟩

theorem headingNames_mono {P l : String} {lines : List String}
    (h : P ∈ headingNames lines) : P ∈ headingNames (l :: lines) := by
  by_cases hp : pyStartsWith "Package: " l = true
  · rw [headingNames_cons_pkg hp]
    exact List.mem_cons_of_mem _ h
  · rwa [headingNames_cons_neg hp]

theorem headingNames_ne_empty {lines : List String} (hT : ∀ l ∈ lines, pyStrip l = l)
    {nm : String} (h : nm ∈ headingNames lines) : ¬ nm = "" := by
  obtain ⟨l, hl, rfl⟩ := List.mem_map.mp h
  have hf := List.mem_filter.mp hl
  exact heading_name_ne (hT l hf.1) hf.2

theorem stanzaHits_append (target : String) (a b : List (String × List String)) :
    stanzaHits target (a ++ b) = stanzaHits target a ++ stanzaHits target b := by
  rw [stanzaHits, stanzaHits, stanzaHits, List.filter_append, List.map_append]

theorem stanzaHits_pair {target p : String} {ds : List String} (h : p ≠ "" ∧ target ∈ ds) :
    stanzaHits target [(p, ds)] = [p] := by
  simp [stanzaHits, h.1, h.2]

theorem stanzaHits_pair_neg {target p : String} {ds : List String}
    (h : ¬ (p ≠ "" ∧ target ∈ ds)) : stanzaHits target [(p, ds)] = [] := by
  simp [stanzaHits, h]

/-- The scan loop followed by the final check equals the filtered stanza
names: the left side is the code, the right side the stanza decomposition. -/
theorem advFinish_foldl (target : String) :
    ∀ (lines : List String), (∀ l ∈ lines, pyStrip l = l) →
    ∀ (cur : Option String) (deps acc : List String),
      advFinish target (lines.foldl (advLine target) ⟨cur, deps, acc⟩) =
        acc ++ stanzaHits target (stanzasOf lines (curPair cur deps)) := by
  intro lines
  induction lines with
  | nil =>
    intro _ cur deps acc
    rw [List.foldl_nil]
    cases cur with
    | none =>
      show acc = acc ++ stanzaHits target (stanzasOf [] none)
      rw [show stanzasOf [] none = [] from rfl,
        show stanzaHits target [] = [] from rfl, List.append_nil]
    | some p =>
      show (if p ≠ "" ∧ target ∈ deps then acc ++ [p] else acc)
          = acc ++ stanzaHits target (stanzasOf [] (some (p, deps)))
      rw [show stanzasOf [] (some (p, deps)) = [(p, deps)] from rfl]
      by_cases hp : p ≠ "" ∧ target ∈ deps
      · rw [if_pos hp, stanzaHits_pair hp]
      · rw [if_neg hp, stanzaHits_pair_neg hp, List.append_nil]
  | cons l ls ih =>
    intro hT cur deps acc
    have htl : pyStrip l = l := hT l (List.mem_cons_self _ _)
    have hT' : ∀ x ∈ ls, pyStrip x = x := fun x hx => hT x (List.mem_cons_of_mem _ hx)
    rw [List.foldl_cons]
    by_cases hpkg : pyStartsWith "Package: " l = true
    · rw [advLine_pkg htl hpkg]
      cases cur with
      | none =>
        show advFinish target (ls.foldl (advLine target) ⟨some (pyDrop 9 l), [], acc⟩)
            = acc ++ stanzaHits target (stanzasOf (l :: ls) none)
        rw [ih hT' (some (pyDrop 9 l)) [] acc, stanzasOf_pkg hpkg]
        show acc ++ stanzaHits target (stanzasOf ls (some (pyDrop 9 l, [])))
            = acc ++ stanzaHits target ([] ++ stanzasOf ls (some (pyDrop 9 l, [])))
        rw [List.nil_append]
      | some p =>
        show advFinish target (ls.foldl (advLine target)
              ⟨some (pyDrop 9 l), [],
                if p ≠ "" ∧ target ∈ deps then acc ++ [p] else acc⟩)
            = acc ++ stanzaHits target (stanzasOf (l :: ls) (some (p, deps)))
        rw [ih hT' (some (pyDrop 9 l)) [] _, stanzasOf_pkg hpkg]
        show (if p ≠ "" ∧ target ∈ deps then acc ++ [p] else acc) ++
              stanzaHits target (stanzasOf ls (some (pyDrop 9 l, [])))
            = acc ++ stanzaHits target ([(p, deps)] ++ stanzasOf ls (some (pyDrop 9 l, [])))
        rw [stanzaHits_append, ← List.append_assoc]
        by_cases hp : p ≠ "" ∧ target ∈ deps
        · rw [if_pos hp, stanzaHits_pair hp]
        · rw [if_neg hp, stanzaHits_pair_neg hp, List.append_nil]
    · by_cases hdep : pyStartsWith "Depends: " l = true
      · rw [advLine_dep htl hpkg hdep]
        cases cur with
        | none =>
          show advFinish target (ls.foldl (advLine target)
                ⟨none, deps ++ depLineVal (pyDrop 9 l), acc⟩)
              = acc ++ stanzaHits target (stanzasOf (l :: ls) none)
          rw [ih hT' none _ acc, stanzasOf_dep_none hpkg hdep]
          rfl
        | some p =>
          show advFinish target (ls.foldl (advLine target)
                ⟨some p, deps ++ depLineVal (pyDrop 9 l), acc⟩)
              = acc ++ stanzaHits target (stanzasOf (l :: ls) (some (p, deps)))
          rw [ih hT' (some p) _ acc, stanzasOf_dep hpkg hdep]
          rfl
      · rw [advLine_other htl hpkg hdep]
        cases cur with
        | none =>
          show advFinish target (ls.foldl (advLine target) ⟨none, deps, acc⟩)
              = acc ++ stanzaHits target (stanzasOf (l :: ls) none)
          rw [ih hT' none deps acc, stanzasOf_other hpkg hdep]
          rfl
        | some p =>
          show advFinish target (ls.foldl (advLine target) ⟨some p, deps, acc⟩)
              = acc ++ stanzaHits target (stanzasOf (l :: ls) (some (p, deps)))
          rw [ih hT' (some p) deps acc, stanzasOf_other hpkg hdep]
          rfl

/-- The collected reverse dependencies are exactly the names of the
stanzas containing the target. -/
theorem advCollect_stanzas (target : String) (lines : List String)
    (hT : ∀ l ∈ lines, pyStrip l = l) :
    advCollect target lines = stanzaHits target (stanzasOf lines none) := by
  have h := advFinish_foldl target lines hT none [] []
  rw [show curPair none ([] : List String) = none from rfl] at h
  rw [show advCollect target lines = advFinish target (advFold target lines) from rfl,
    show advFold target lines = lines.foldl (advLine target) ⟨none, [], []⟩ from rfl, h,
    List.nil_append]

/-- Inside the target stanza (no further heading for `P` ahead), the parse
loop collects exactly the `Depends:` values up to the next heading. -/
theorem parseLoop_true (P : String) :
    ∀ (lines : List String), P ∉ headingNames lines →
    ∀ acc, parseLoop P lines true acc = acc ++ collectTail lines := by
  intro lines
  induction lines with
  | nil =>
    intro _ acc
    rw [parseLoop, collectTail, List.append_nil]
  | cons l ls ih =>
    intro hnp acc
    have hnp' : P ∉ headingNames ls := fun h => hnp (headingNames_mono h)
    have hcond : ¬ (pyStartsWith "Package: " l = true ∧ pyDrop 9 l = P) := by
      rintro ⟨h1, h2⟩
      exact hnp (mem_headingNames (List.mem_cons_self _ _) h1 h2)
    rw [parseLoop, if_neg hcond]
    by_cases hdep : pyStartsWith "Depends: " l = true
    · rw [if_pos hdep, ih hnp' _, collectTail, if_pos hdep, List.append_assoc]
    · by_cases hpkg : pyStartsWith "Package: " l = true
      · rw [if_neg hdep, if_pos hpkg, collectTail, if_neg hdep, if_pos hpkg,
          List.append_nil]
      · rw [if_neg hdep, if_neg hpkg, ih hnp' _, collectTail, if_neg hdep, if_neg hpkg]

/-- When the open stanza is named `P` and no later heading is named `P`,
the `P` entry of the stanza decomposition is the open dependency list plus
the collected tail. -/
theorem lookupDeps_stanzasOf_noP (P : String) :
    ∀ (lines : List String), P ∉ headingNames lines →
    ∀ ds, lookupDeps P (stanzasOf lines (some (P, ds))) = ds ++ collectTail lines := by
  intro lines
  induction lines with
  | nil =>
    intro _ ds
    rw [show stanzasOf [] (some (P, ds)) = [(P, ds)] from rfl, lookupDeps, if_pos rfl,
      collectTail, List.append_nil]
  | cons l ls ih =>
    intro hnp ds
    have hnp' : P ∉ headingNames ls := fun h => hnp (headingNames_mono h)
    by_cases hpkg : pyStartsWith "Package: " l = true
    · have hdep : ¬ pyStartsWith "Depends: " l = true := pkg_not_dep hpkg
      rw [stanzasOf_pkg hpkg]
      rw [show ((match (some (P, ds) : Option (String × List String)) with
          | some st => [st] | none => []) : List (String × List String)) = [(P, ds)] from rfl]
      rw [List.singleton_append, lookupDeps, if_pos rfl, collectTail, if_neg hdep,
        if_pos hpkg, List.append_nil]
    · by_cases hdep : pyStartsWith "Depends: " l = true
      · rw [stanzasOf_dep hpkg hdep, ih hnp' _, collectTail, if_pos hdep,
          List.append_assoc]
      · rw [stanzasOf_other hpkg hdep, ih hnp' ds, collectTail, if_neg hdep, if_neg hpkg]

/-- In search mode, with duplicate-free heading names and an open stanza
not named `P`, the parse loop returns the accumulated names plus the `P`
entry of the stanza decomposition. -/
theorem parseLoop_false (P : String) :
    ∀ (lines : List String), (headingNames lines).Nodup →
    ∀ (cur : Option (String × List String)), (∀ p ds, cur = some (p, ds) → ¬ p = P) →
    ∀ acc, parseLoop P lines false acc = acc ++ lookupDeps P (stanzasOf lines cur) := by
  intro lines
  induction lines with
  | nil =>
    intro _ cur hcur acc
    cases cur with
    | none =>
      rw [parseLoop, show stanzasOf [] none = [] from rfl, lookupDeps, List.append_nil]
    | some pr =>
      obtain ⟨p, ds⟩ := pr
      rw [parseLoop, show stanzasOf [] (some (p, ds)) = [(p, ds)] from rfl, lookupDeps,
        if_neg (hcur p ds rfl), lookupDeps, List.append_nil]
  | cons l ls ih =>
    intro hnd cur hcur acc
    by_cases hmatch : pyStartsWith "Package: " l = true ∧ pyDrop 9 l = P
    · obtain ⟨hpkg, hdropP⟩ := hmatch
      have hhead : headingNames (l :: ls) = P :: headingNames ls := by
        rw [headingNames_cons_pkg hpkg, hdropP]
      have hnp : P ∉ headingNames ls := by
        rw [hhead] at hnd
        exact (List.nodup_cons.mp hnd).1
      rw [parseLoop, if_pos ⟨hpkg, hdropP⟩, parseLoop_true P ls hnp acc,
        stanzasOf_pkg hpkg, hdropP]
      cases cur with
      | none =>
        rw [show ((match (none : Option (String × List String)) with
            | some st => [st] | none => []) : List (String × List String)) = [] from rfl,
          List.nil_append, lookupDeps_stanzasOf_noP P ls hnp [], List.nil_append]
      | some pr =>
        obtain ⟨p, ds⟩ := pr
        rw [show ((match (some (p, ds) : Option (String × List String)) with
            | some st => [st] | none => []) : List (String × List String)) = [(p, ds)] from rfl,
          List.singleton_append, lookupDeps, if_neg (hcur p ds rfl),
          lookupDeps_stanzasOf_noP P ls hnp [], List.nil_append]
    · rw [parseLoop, if_neg hmatch]
      by_cases hpkg : pyStartsWith "Package: " l = true
      · have hq : ¬ pyDrop 9 l = P := fun h => hmatch ⟨hpkg, h⟩
        have hnd' : (headingNames ls).Nodup := by
          rw [headingNames_cons_pkg hpkg] at hnd
          exact (List.nodup_cons.mp hnd).2
        rw [ih hnd' (some (pyDrop 9 l, []))
          (by rintro p ds hpd; injection hpd with hpd'; rw [← (Prod.mk.injEq _ _ _ _).mp hpd' |>.1]; exact hq) acc]
        rw [stanzasOf_pkg hpkg]
        cases cur with
        | none =>
          rw [show ((match (none : Option (String × List String)) with
              | some st => [st] | none => []) : List (String × List String)) = [] from rfl,
            List.nil_append]
        | some pr =>
          obtain ⟨p, ds⟩ := pr
          rw [show ((match (some (p, ds) : Option (String × List String)) with
              | some st => [st] | none => []) : List (String × List String)) = [(p, ds)] from rfl,
            List.singleton_append, lookupDeps, if_neg (hcur p ds rfl)]
      · have hnd' : (headingNames ls).Nodup := by
          rwa [headingNames_cons_neg hpkg] at hnd
        by_cases hdep : pyStartsWith "Depends: " l = true
        · cases cur with
          | none =>
            rw [ih hnd' none (fun p ds h => Option.noConfusion h) acc,
              stanzasOf_dep_none hpkg hdep]
          | some pr =>
            obtain ⟨p, ds⟩ := pr
            rw [ih hnd' (some (p, ds ++ depLineVal (pyDrop 9 l)))
              (by rintro p' ds' hpd; injection hpd with hpd'
                  rw [← (Prod.mk.injEq _ _ _ _).mp hpd' |>.1]; exact hcur p ds rfl) acc,
              stanzasOf_dep hpkg hdep]
        · cases cur with
          | none =>
            rw [ih hnd' none (fun p ds h => Option.noConfusion h) acc,
              stanzasOf_other hpkg hdep]
          | some pr =>
            obtain ⟨p, ds⟩ := pr
            rw [ih hnd' (some (p, ds)) hcur acc, stanzasOf_other hpkg hdep]

/-- Membership in the first-match lookup, for duplicate-free keys. -/
theorem lookupDeps_mem {P T : String} : ∀ {sts : List (String × List String)},
    (sts.map Prod.fst).Nodup →
    ((T ∈ lookupDeps P sts) ↔ ∃ ds, (P, ds) ∈ sts ∧ T ∈ ds) := by
  intro sts
  induction sts with
  | nil =>
    intro _
    rw [lookupDeps]
    simp
  | cons s rest ih =>
    intro hnd
    obtain ⟨p, ds⟩ := s
    rw [List.map_cons, List.nodup_cons] at hnd
    by_cases hp : p = P
    · subst hp
      rw [lookupDeps, if_pos rfl]
      constructor
      · intro h
        exact ⟨ds, List.mem_cons_self _ _, h⟩
      · rintro ⟨ds', hmem, hT⟩
        rcases List.mem_cons.mp hmem with heq | hmem'
        · injection heq with e1 e2
          rw [← e2]
          exact hT
        · exact absurd (List.mem_map_of_mem Prod.fst hmem') hnd.1
    · rw [lookupDeps, if_neg hp, ih hnd.2]
      constructor
      · rintro ⟨ds', h1, h2⟩
        exact ⟨ds', List.mem_cons_of_mem _ h1, h2⟩
      · rintro ⟨ds', h1, h2⟩
        rcases List.mem_cons.mp h1 with heq | h1'
        · injection heq with e1 e2
          exact absurd e1.symm hp
        · exact ⟨ds', h1', h2⟩

/-- The stanza names are the open stanza's name followed by the heading
names. -/
theorem stanzasOf_names :
    ∀ (lines : List String) (cur : Option (String × List String)),
      (stanzasOf lines cur).map Prod.fst =
        (match cur with | some st => [st.1] | none => []) ++ headingNames lines := by
  intro lines
  induction lines with
  | nil =>
    intro cur
    cases cur with
    | none => rfl
    | some st => rfl
  | cons l ls ih =>
    intro cur
    by_cases hpkg : pyStartsWith "Package: " l = true
    · rw [stanzasOf_pkg hpkg, List.map_append, ih (some (pyDrop 9 l, [])),
        headingNames_cons_pkg hpkg]
      cases cur with
      | none => rfl
      | some st => rfl
    · by_cases hdep : pyStartsWith "Depends: " l = true
      · cases cur with
        | none =>
          rw [stanzasOf_dep_none hpkg hdep, ih none, headingNames_cons_neg hpkg]
        | some st =>
          obtain ⟨p, ds⟩ := st
          rw [stanzasOf_dep hpkg hdep, ih _, headingNames_cons_neg hpkg]
      · rw [stanzasOf_other hpkg hdep, ih cur, headingNames_cons_neg hpkg]

/-- Every name produced by the clause loop is nonempty. -/
theorem depFold_ne (ds : List String) :
    ∀ acc : List String, (∀ y ∈ acc, ¬ y = "") →
      ∀ x ∈ ds.foldl (fun a dep =>
          let n := parseDepName dep
          if n ≠ "" then a ++ [n] else a) acc, ¬ x = "" := by
  induction ds with
  | nil =>
    intro acc h x hx
    exact h x hx
  | cons dep rest ih =>
    intro acc h x hx
    rw [List.foldl_cons] at hx
    refine ih _ ?_ x hx
    intro y hy
    dsimp only at hy
    by_cases hn : parseDepName dep ≠ ""
    · rw [if_pos hn] at hy
      rcases List.mem_append.mp hy with h1 | h1
      · exact h y h1
      · rw [List.mem_singleton.mp h1]
        exact hn
    · rw [if_neg hn] at hy
      exact h y hy

theorem depLineVal_ne_empty {value x : String} (h : x ∈ depLineVal value) : ¬ x = "" :=
  depFold_ne (pySplitChar ',' value) [] (fun y hy => absurd hy (List.not_mem_nil y)) x h

/-- Every dependency recorded in a stanza is nonempty. -/
theorem stanzasOf_deps_ne :
    ∀ (lines : List String) (cur : Option (String × List String)),
      (∀ p ds, cur = some (p, ds) → ∀ x ∈ ds, ¬ x = "") →
      ∀ s ∈ stanzasOf lines cur, ∀ x ∈ s.2, ¬ x = "" := by
  intro lines
  induction lines with
  | nil =>
    intro cur hcur s hs x hx
    cases cur with
    | none => cases hs
    | some pr =>
      obtain ⟨p, ds⟩ := pr
      obtain rfl : s = (p, ds) := List.mem_singleton.mp hs
      exact hcur p ds rfl x hx
  | cons l ls ih =>
    intro cur hcur s hs x hx
    by_cases hpkg : pyStartsWith "Package: " l = true
    · rw [stanzasOf_pkg hpkg] at hs
      rcases List.mem_append.mp hs with h1 | h1
      · cases cur with
        | none => cases h1
        | some pr =>
          obtain ⟨p, ds⟩ := pr
          obtain rfl : s = (p, ds) := List.mem_singleton.mp h1
          exact hcur p ds rfl x hx
      · exact ih (some (pyDrop 9 l, []))
          (by rintro p ds hpd x' hx'
              injection hpd with hpd'
              rw [← (Prod.mk.injEq _ _ _ _).mp hpd' |>.2] at hx'
              cases hx') s h1 x hx
    · by_cases hdep : pyStartsWith "Depends: " l = true
      · cases cur with
        | none =>
          rw [stanzasOf_dep_none hpkg hdep] at hs
          exact ih none (fun p ds h => Option.noConfusion h) s hs x hx
        | some pr =>
          obtain ⟨p, ds⟩ := pr
          rw [stanzasOf_dep hpkg hdep] at hs
          refine ih (some (p, ds ++ depLineVal (pyDrop 9 l))) ?_ s hs x hx
          rintro p' ds' hpd x' hx'
          injection hpd with hpd'
          rw [← (Prod.mk.injEq _ _ _ _).mp hpd' |>.2] at hx'
          rcases List.mem_append.mp hx' with h1 | h1
          · exact hcur p ds rfl x' h1
          · exact depLineVal_ne_empty h1
      · rw [stanzasOf_other hpkg hdep] at hs
        exact ih cur hcur s hs x hx

/-! ### Claim C9: the two stanza parsers agree -/

/-- Claim C9: for every index text whose lines carry no leading or
trailing whitespace and in which each package name heads at most one
`Package:` stanza, and for every pair of package names P and T: P appears
in the full-index reverse scan's result for target T if and only if T is
in the dependency set returned by `parse_package_dependencies` for P —
the forward lookup and the reverse scan attribute the same
direct-dependency sets to every package. -/
theorem claim_C9 (content P T : String)
    (hT : ∀ l ∈ pySplitChar '\n' content, pyStrip l = l)
    (hU : (headingNames (pySplitChar '\n' content)).Nodup) :
    P ∈ find_reverse_dependencies_advanced content T ↔
      T ∈ parse_package_dependencies content P := by
  have hnames : (stanzasOf (pySplitChar '\n' content) none).map Prod.fst =
      headingNames (pySplitChar '\n' content) := by
    rw [stanzasOf_names]
    rfl
  have hadv : P ∈ find_reverse_dependencies_advanced content T ↔
      ∃ s ∈ stanzasOf (pySplitChar '\n' content) none, s.1 = P ∧ s.1 ≠ "" ∧ T ∈ s.2 := by
    rw [find_reverse_dependencies_advanced, List.mem_insertionSort, mem_pyDedup,
      advCollect_stanzas T _ hT, stanzaHits]
    constructor
    · intro h
      obtain ⟨s, hs, rfl⟩ := List.mem_map.mp h
      have hf := List.mem_filter.mp hs
      have hcond := of_decide_eq_true hf.2
      exact ⟨s, hf.1, rfl, hcond.1, hcond.2⟩
    · rintro ⟨s, hs, rfl, h1, h2⟩
      exact List.mem_map.mpr ⟨s, List.mem_filter.mpr ⟨hs, decide_eq_true ⟨h1, h2⟩⟩, rfl⟩
  have hparse : T ∈ parse_package_dependencies content P ↔
      (¬ T = "") ∧ T ∈ lookupDeps P (stanzasOf (pySplitChar '\n' content) none) := by
    rw [parse_package_dependencies, mem_pyDedup, List.mem_filter,
      parseLoop_false P _ hU none (fun p ds h => Option.noConfusion h) [],
      List.nil_append]
    constructor
    · rintro ⟨h1, h2⟩
      exact ⟨of_decide_eq_true h2, h1⟩
    · rintro ⟨h1, h2⟩
      exact ⟨h2, decide_eq_true h1⟩
  rw [hadv, hparse, lookupDeps_mem (hnames ▸ hU)]
  constructor
  · rintro ⟨⟨p, ds⟩, hs, hp, hne, hT2⟩
    rcases hp with rfl
    refine ⟨?_, ds, hs, hT2⟩
    exact stanzasOf_deps_ne _ none (fun p' ds' h => Option.noConfusion h) (p, ds) hs T hT2
  · rintro ⟨hTne, ds, hmem, hT2⟩
    refine ⟨(P, ds), hmem, rfl, ?_, hT2⟩
    have hPh : P ∈ headingNames (pySplitChar '\n' content) := by
      rw [← hnames]
      exact List.mem_map_of_mem Prod.fst hmem
    exact headingNames_ne_empty hT hPh

/-- Witness for C9 on a concrete two-stanza index. -/
theorem claim_C9_witness :
    (∀ l ∈ pySplitChar '\n' "Package: A\nDepends: B, C (>= 1.0)\nPackage: B\nDepends: C",
      pyStrip l = l) ∧
    ((("A" : String) ∈ find_reverse_dependencies_advanced
        "Package: A\nDepends: B, C (>= 1.0)\nPackage: B\nDepends: C" "B") ↔
      (("B" : String) ∈ parse_package_dependencies
        "Package: A\nDepends: B, C (>= 1.0)\nPackage: B\nDepends: C" "A")) :=
  ⟨by decide,
   claim_C9 "Package: A\nDepends: B, C (>= 1.0)\nPackage: B\nDepends: C" "A" "B"
     (by decide) (by decide)⟩
